import Mathlib

/-!
Verification of the semi2k arithmetic-sharing kernels
(`src/libspu/mpc/semi2k/arithmetic.cc`) against their specification.

Values are additively secret-shared over the ring Z/2^k.  We embed each
kernel's per-party local computation as a Lean function on `ZMod (2^k)`,
with the collective operations (all-reduce, send/recv) made explicit: an
all-reduce of per-party values `f i` is the sum `∑ i, f i`, handed back
to every party.  Fallible code (`SPU_ENFORCE`, `SPU_THROW`) is embedded
with `Option`, `none` modelling a fatal failure.
-/

namespace Semi2k

/-- The ring Z/2^k of a field with width `k` bits (k ∈ {32, 64, 128} in
the implementation; the embedding is generic in `k`). -/
abbrev R (k : ℕ) : Type := ZMod (2 ^ k)

instance (k : ℕ) : NeZero (2 ^ k) := ⟨by positivity⟩

/-! ### Ring-array primitives used by the kernels -/

/-- Logical (unsigned) right shift of a ring value, as `ring_rshift`
performs on the k-bit word. -/
def ring_rshift (k bits : ℕ) (v : R k) : R k :=
  ((v.val >>> bits : ℕ) : R k)

/-- The signed reading of a k-bit word (two's complement). -/
def toSigned (k : ℕ) (v : R k) : ℤ :=
  if v.val < 2 ^ (k - 1) then (v.val : ℤ) else (v.val : ℤ) - 2 ^ k

/-- Arithmetic (sign-extending) right shift of a ring value, as
`ring_arshift` performs on the k-bit word. -/
def ring_arshift (k bits : ℕ) (v : R k) : R k :=
  ((toSigned k v >>> bits : ℤ) : R k)

/-- `ring_bitmask(y, 0, 1)`: mask a ring value to its lowest bit. -/
def bitmask1 (k : ℕ) (y : R k) : R k :=
  ((y.val % 2 : ℕ) : R k)

/-! ### Share conversion kernels -/

/-- The per-call view of the correlated-randomness source: the private
random array this party would draw with `genPriv`, and the PRSS pair it
would draw with `genPrssPair`. -/
structure PrgDraw (k : ℕ) where
  priv : R k
  prss : R k × R k

/-- `RandA::proc`: returns `ring_rshift(prg_state->genPriv(field, shape),
{2})` — the *private* random draw shifted right by 2 bits — with no
communication (the second component counts communication rounds). -/
def RandA (k : ℕ) (st : PrgDraw k) : R k × ℕ :=
  (ring_rshift k 2 st.priv, 0)

/-- The claim's version of `RandShare`, following the spec's words: it
draws a PRSS pair `(r0, r1)` and returns `r0 - r1` right-shifted by
2 bits, with no communication. -/
def RandA_claimed (k : ℕ) (st : PrgDraw k) : R k × ℕ :=
  (ring_rshift k 2 (st.prss.1 - st.prss.2), 0)

/-- `P2A::proc` per-party share: `x_i = r0_i - r1_i`, and rank 0
additionally adds the plaintext (`ring_add_(x, in)` under
`comm->getRank() == 0`). -/
def P2A_local (k : ℕ) (rank : ℕ) (x r0 r1 : R k) : R k :=
  (r0 - r1) + (if rank = 0 then x else 0)

/-- `A2P::proc`: additive all-reduce of the parties' shares. -/
def A2P (k N : ℕ) (shares : Fin N → R k) : R k :=
  ∑ i : Fin N, shares i

/-! ### The Beaver multiplication engine -/

/-- `MulAA::proc` local combination, given the Beaver triple shares
`(a_i, b_i, c_i)` and the two opened maskings `x_a = open(x - a)`,
`y_b = open(y - b)` from `MulOpen`:
`Zi = Ci + (X-A) * Bi + (Y-B) * Ai`, rank 0 additionally adding
`(X-A) * (Y-B)`. -/
def MulAA_local (k : ℕ) (rank : ℕ) (a b c x_a y_b : R k) : R k :=
  b * x_a + a * y_b + c + (if rank = 0 then x_a * y_b else 0)

/-- The additive all-reduce that opens `x - a`: every party contributes
`x_i - a_i` and receives the sum. -/
def openSum (k N : ℕ) (xs as : Fin N → R k) : R k :=
  ∑ i : Fin N, (xs i - as i)

/-- The masked first operand of `MulA1B`:
`xx = (1 - 2 * yy) * x` with `yy = y & 1` (the code builds `ring_ones`,
subtracts `yy << 1`, and multiplies by `x` in place). -/
def MulA1B_xx (k : ℕ) (x y : R k) : R k :=
  (1 - 2 * bitmask1 k y) * x

/-- `MulA1B::proc` local combination, after `MulOpen` on `(xx, yy)`
produced the triple shares `(a, b, c)` and the openings
`xx_a = open(xx - a)`, `yy_b = open(yy - b)`:
`Zi = Ci + (XX-A) * Bi + (YY-B) * Ai - XXi * YYi`, rank 0 adding
`(XX-A) * (YY-B)`, and finally `Zi += Xi * YYi` locally. -/
def MulA1B_local (k : ℕ) (rank : ℕ) (x y a b c xx_a yy_b : R k) : R k :=
  b * xx_a + a * yy_b + c - MulA1B_xx k x y * bitmask1 k y
    + (if rank = 0 then xx_a * yy_b else 0)
    + x * bitmask1 k y

/-- `MulVVS::proc`, per-party view.  `xRank` and `yRank` are the owners
of the two private operands; `a`, `c` are this party's shares of the
Beaver private-multiply pair (`a0 * a1 = c0 + c1`); `recvd` is the
masked value received from the peer (`a_peer + in_peer`).  The kernel
first enforces distinct owners (`SPU_ENFORCE_NE`), then selects the
local input (throwing for a rank owning neither operand), and finally
combines: rank 0 computes `recvd * in + c`, rank 1 computes
`-a * recvd + c`, any other rank throws. -/
def MulVVS_local (k : ℕ) (rank xRank yRank : ℕ) (x y a c recvd : R k) :
    Option (R k) :=
  if xRank = yRank then none
  else if rank = xRank ∨ rank = yRank then
    (if rank = 0 then some (recvd * (if rank = xRank then x else y) + c)
     else if rank = 1 then some (-a * recvd + c)
     else none)
  else none

/-! ### The masking/opening engine `MulOpen` with the Beaver replay cache

System-level model of `MulOpen` (elementwise case) across all `N`
parties.  A cache entry mirrors `GetCache`'s result: whether caching is
enabled for the operand's identity, and the opened masking when the
replay descriptor is past its `Init` state (`none` models
`Beaver::Init`).  Communication is counted two ways, matching the code:
`opens` is the number of operands whose masking is all-reduced, and
`rounds` is the number of communication rounds, with the `vmap` branch
batching both openings into a single round. -/

structure OCache (k : ℕ) where
  enabled : Bool
  opened : Option (R k)

/-- A deterministic view of one `Beaver::Mul` reply: each party's triple
shares. -/
structure Triple (k N : ℕ) where
  a : Fin N → R k
  b : Fin N → R k
  c : Fin N → R k

/-- Result of the system-level `MulOpen`: the triple handed through, the
two opened maskings, the updated cache entries, the number of
all-reduced operands, and the number of communication rounds. -/
structure MulOpenOut (k N : ℕ) where
  a : Fin N → R k
  b : Fin N → R k
  c : Fin N → R k
  x_a : R k
  y_b : R k
  cx : OCache k
  cy : OCache k
  opens : ℕ
  rounds : ℕ

/-- `MulOpen` (elementwise), system-level.  `disableVec` is
`experimental_disable_vectorization`; `sameId` models `x == y` (same
operand identity).  Follows the source: disable `y`'s entry when both
operands are the same identity and `x`'s entry is still in its initial
state; reuse a cached opening (`x_hit_cache`) instead of all-reducing;
batch both openings in one round in the `vmap` branch; store newly
opened maskings for enabled, still-initial entries. -/
def MulOpenSys (k N : ℕ) (disableVec sameId : Bool) (cx cy : OCache k)
    (xs ys : Fin N → R k) (t : Triple k N) : MulOpenOut k N :=
  let cy1 : OCache k :=
    if sameId ∧ cx.enabled ∧ cx.opened = none then
      { cy with enabled := false } else cy
  let xHit : Bool := cx.enabled && cx.opened.isSome
  let yHit : Bool := cy1.enabled && cy1.opened.isSome
  let x_a : R k := if xHit then cx.opened.getD 0 else openSum k N xs t.a
  let y_b : R k := if yHit then cy1.opened.getD 0 else openSum k N ys t.b
  let opens : ℕ := (if xHit then 0 else 1) + (if yHit then 0 else 1)
  let rounds : ℕ :=
    if disableVec || xHit || yHit then
      (if xHit then 0 else 1) + (if yHit then 0 else 1)
    else 1
  let cx2 : OCache k :=
    if cx.enabled ∧ cx.opened = none then
      { cx with opened := some x_a } else cx
  let cy2 : OCache k :=
    if cy1.enabled ∧ cy1.opened = none then
      { cy1 with opened := some y_b } else cy1
  ⟨t.a, t.b, t.c, x_a, y_b, cx2, cy2, opens, rounds⟩

/-- Result of a system-level `MulAA` invocation: per-party outputs, the
updated cache entries and the communication counts. -/
structure KernelOut (k N : ℕ) where
  z : Fin N → R k
  cx : OCache k
  cy : OCache k
  opens : ℕ
  rounds : ℕ

/-- `MulAA::proc`, system-level: run `MulOpen`, then combine locally at
every rank. -/
def MulAASys (k N : ℕ) (disableVec sameId : Bool) (cx cy : OCache k)
    (xs ys : Fin N → R k) (t : Triple k N) : KernelOut k N :=
  let o := MulOpenSys k N disableVec sameId cx cy xs ys t
  ⟨fun i => MulAA_local k (i : ℕ) (o.a i) (o.b i) (o.c i) o.x_a o.y_b,
    o.cx, o.cy, o.opens, o.rounds⟩

/-- A fresh cache entry with caching enabled (after `EnableCache`). -/
def cacheOn (k : ℕ) : OCache k := ⟨true, none⟩

/-- The cache entry `GetCache` yields for an operand with caching
disabled. -/
def cacheOff (k : ℕ) : OCache k := ⟨false, none⟩

/-! ### Typed (metadata-level) view of the kernels

For the error-handling claims we track each operand's field and shape
and each Beaver reply buffer's byte size, and model every kernel as
returning `(result?, number of communication operations issued)`. -/

inductive FieldT
  | FM32
  | FM64
  | FM128
deriving DecidableEq

/-- `SizeOf(field)`: the element byte size of a field. -/
def sizeOfField : FieldT → ℕ
  | .FM32 => 4
  | .FM64 => 8
  | .FM128 => 16

/-- The metadata of an `NdArrayRef`: its ring field and its shape. -/
structure Arr where
  field : FieldT
  shape : List ℕ
deriving DecidableEq

/-- Element count of an array. -/
def Arr.numel (a : Arr) : ℕ := a.shape.prod

/-- A flat byte buffer returned by the Beaver source. -/
structure Buffer where
  size : ℕ
deriving DecidableEq

/-- `ring_add`'s typed behaviour (external primitive): result takes the
left operand's type and shape, as the kernels then tag it with
`.as(lhs.eltype())`. -/
def ringAddT (lhs _rhs : Arr) : Arr :=
  { field := lhs.field, shape := lhs.shape }

/-- `AddAA::proc`: enforces equal element counts and equal element types
(`AShrTy(field)` equality is field equality), then adds locally.  No
communication. -/
def AddAAT (lhs rhs : Arr) : Option Arr × ℕ :=
  if lhs.numel = rhs.numel then
    if lhs.field = rhs.field then (some (ringAddT lhs rhs), 0)
    else (none, 0)
  else (none, 0)

/-- `AddAP::proc`: enforces equal element counts only; rank 0 adds the
public value locally, every other rank returns `lhs` unchanged.  No
communication. -/
def AddAPT (rank : ℕ) (lhs rhs : Arr) : Option Arr × ℕ :=
  if lhs.numel = rhs.numel then
    (if rank = 0 then some (ringAddT lhs rhs) else some lhs, 0)
  else (none, 0)

/-- The output shape validation of `MulOpen`: elementwise requires equal
shapes, `mmul` requires `x.shape[1] == y.shape[0]` on 2-d shapes and
yields `(x.shape[0], y.shape[1])`. -/
def mulOpenZShape (mmul : Bool) (x y : Arr) : Option (List ℕ) :=
  if mmul then
    match x.shape, y.shape with
    | [xr, xc], [yr, yc] => if xc = yr then some [xr, yc] else none
    | _, _ => none
  else if x.shape = y.shape then some x.shape else none

/-- `MulOpen` at the metadata level (without the replay cache, i.e. both
cache entries in their disabled state): validate shapes, request the
triple, enforce each reply buffer's byte size against the requested
element count times the element size of `x`'s field (`SPU_ENFORCE` on
`a_buf`/`b_buf`/`c_buf`), and only then open the two maskings (two
all-reduce operations).  The returned arrays carry the types
`UnflattenBuffer` assigns: `a` from `x`, `b` from `y`, `c` from `x`'s
element type with the output shape. -/
def MulOpenT (mmul : Bool) (x y : Arr) (aB bB cB : Buffer) :
    Option (Arr × Arr × Arr) × ℕ :=
  match mulOpenZShape mmul x y with
  | none => (none, 0)
  | some zShape =>
    if mmul then
      if aB.size = x.numel * sizeOfField x.field ∧
          bB.size = y.numel * sizeOfField x.field ∧
          cB.size = zShape.prod * sizeOfField x.field then
        ((some (⟨x.field, x.shape⟩, ⟨y.field, y.shape⟩,
          ⟨x.field, zShape⟩), 2) : Option (Arr × Arr × Arr) × ℕ)
      else (none, 0)
    else
      if aB.size = x.numel * sizeOfField x.field ∧
          bB.size = x.numel * sizeOfField x.field ∧
          cB.size = x.numel * sizeOfField x.field then
        ((some (⟨x.field, x.shape⟩, ⟨y.field, y.shape⟩,
          ⟨x.field, zShape⟩), 2) : Option (Arr × Arr × Arr) × ℕ)
      else (none, 0)

/-- `MulAA::proc` at the metadata level: `MulOpen`, then a local
combination typed `.as(x.eltype())`. -/
def MulAAT (x y : Arr) (aB bB cB : Buffer) : Option Arr × ℕ :=
  match MulOpenT false x y aB bB cB with
  | (none, n) => (none, n)
  | (some _, n) => (some ⟨x.field, x.shape⟩, n)

/-- `MulA1B::proc` at the metadata level: enforces equal fields first
(`SPU_ENFORCE` on `x.eltype().as<RingTy>()->field()`), masks `y` and
builds `xx` locally (shape-preserving), then runs `MulOpen`. -/
def MulA1BT (x y : Arr) (aB bB cB : Buffer) : Option Arr × ℕ :=
  if x.field = y.field then
    match MulOpenT false ⟨x.field, x.shape⟩ ⟨x.field, y.shape⟩ aB bB cB with
    | (none, n) => (none, n)
    | (some _, n) => (some ⟨x.field, x.shape⟩, n)
  else (none, 0)

/-- `SquareA::proc` at the metadata level (cache disabled): requests the
Beaver square pair, enforces both reply buffers' byte sizes, then opens
`x - a` (one all-reduce). -/
def SquareAT (x : Arr) (aB bB : Buffer) : Option Arr × ℕ :=
  if aB.size = x.numel * sizeOfField x.field ∧
      bB.size = x.numel * sizeOfField x.field then
    (some ⟨x.field, x.shape⟩, 1)
  else (none, 0)

/-- `MulVVS::proc` at the metadata level: enforces distinct owners, that
the caller owns one operand, and the `MulPriv` reply buffers' byte
sizes, before the single send/recv round-trip; the rank ∈ {0, 1} check
happens after the exchange. -/
def MulVVST (rank xOwner yOwner : ℕ) (x y : Arr) (aB cB : Buffer) :
    Option Arr × ℕ :=
  if xOwner = yOwner then (none, 0)
  else if rank = xOwner ∨ rank = yOwner then
    if aB.size = x.numel * sizeOfField x.field ∧
        cB.size = x.numel * sizeOfField x.field then
      (if rank = 0 ∨ rank = 1 then some ⟨x.field, x.shape⟩ else none, 1)
    else (none, 0)
  else (none, 0)

/-! ### Truncation kernels -/

/-- The `sign` hint passed to the truncation kernels. -/
inductive SignType
  | Unknown
  | Positive
  | Negative
deriving DecidableEq

/-- `TruncA::proc`, per-party view.  With exactly two parties the share
is arithmetically shifted locally; otherwise the Beaver truncation pair
`(r, rb)` is drawn, `x - r` is opened (here `x_r`, the all-reduce
result), and rank 0 adds the shifted opening to its `rb` share.  The
`sign` argument is received and discarded (`(void)sign`). -/
def TruncA_proc (k bits : ℕ) (sign : SignType) (worldSize rank : ℕ)
    (x rb x_r : R k) : R k :=
  if worldSize = 2 then ring_arshift k bits x
  else rb + (if rank = 0 then ring_arshift k bits x_r else 0)

/-- The masking step of `TruncAPr::proc`: rank 0 re-centers its share by
`2^(k-2)` (`x += U(1) << (k - 2)`), then every rank masks with its `r`
share. -/
def TruncAPr_mask (k : ℕ) (rank : ℕ) (x r : R k) : R k :=
  (x + (if rank = 0 then ((2 ^ (k - 2) : ℕ) : R k) else 0)) + r

/-- The opened masked value `c` of `TruncAPr::proc`: the all-reduce of
the parties' masked shares, as the k-bit word every party receives. -/
def TruncAPr_open (k N : ℕ) (xs rs : Fin N → R k) : ℕ :=
  (∑ i : Fin N, TruncAPr_mask k (i : ℕ) (xs i) (rs i)).val

/-- The local recombination of `TruncAPr::proc` after opening `c`:
every rank extracts `c_{k-1}`, reconstructs the carry-bit share
`b = rb + c_{k-1} - 2*c_{k-1}*rb` (only rank 0 adds the `c_{k-1}`
term), and rank 0 additionally adds `c_hat = (c << 1) >> (1 + bits)`
and subtracts the re-centering offset `2^(k-2-bits)`.  The `sign`
argument is received and discarded. -/
def TruncAPr_local (k bits : ℕ) (sign : SignType) (rank : ℕ) (c : ℕ)
    (rc rb : R k) : R k :=
  let ck1 : ℕ := c >>> (k - 1)
  if rank = 0 then
    let b : R k := rb + (ck1 : R k) - 2 * (ck1 : R k) * rb
    let c_hat : ℕ := ((c <<< 1) % 2 ^ k) >>> (1 + bits)
    (c_hat : R k) - rc + b * ((2 ^ (k - 1 - bits) : ℕ) : R k)
      - ((2 ^ (k - 2 - bits) : ℕ) : R k)
  else
    let b : R k := rb + 0 - 2 * (ck1 : R k) * rb
    (0 : R k) - rc + b * ((2 ^ (k - 1 - bits) : ℕ) : R k)

/-- Modelled from the spec: `TruncAPr2::kBitsLeftOut` is declared in
`arithmetic.h`, which is not under `src/`; per the spec the thresholds
are `L/4 = 2^(k-2)` and `L/2`, so the constant is 2. -/
def kBitsLeftOut : ℕ := 2

/-- `getTruncField`: the width of the narrower ring used for the wrap
indicator (32/64/128 for `bits` up to 32/64/128; larger throws, guarded
at the call sites). -/
def truncFieldWidth (bits : ℕ) : ℕ :=
  if bits ≤ 32 then 32 else if bits ≤ 64 then 64 else 128

/-- The local classification step of `computeMW`: rank 0 tests
`(x - L/4) >= L/2` on the k-bit word, rank 1 tests `x >= L/2`; any
other rank throws. -/
def computeMW_star (k rank : ℕ) (x : R k) : Option ℕ :=
  let L4 : R k := ((2 ^ (k - kBitsLeftOut) : ℕ) : R k)
  let L2 : ℕ := (2 ^ (k - kBitsLeftOut) <<< 1) % 2 ^ k
  if rank = 0 then some (if L2 ≤ (x - L4).val then 1 else 0)
  else if rank = 1 then some (if L2 ≤ x.val then 1 else 0)
  else none

/-- `computeMW`, per-party view: classify the local share, cast the
1-bit indicator into the `truncFieldWidth bits`-wide ring, multiply the
two parties' indicators with the two-party private multiply (`a`, `c`:
this party's `MulPriv` pair shares; `recvd`: the peer's masked
indicator), and let rank 0 add the correction
`1 - (x < L/4)`. -/
def computeMW (k bits rank : ℕ) (x : R k)
    (a c recvd : R (truncFieldWidth bits)) :
    Option (R (truncFieldWidth bits)) :=
  match computeMW_star k rank x with
  | none => none
  | some bit =>
    match MulVVS_local (truncFieldWidth bits) rank 0 1
        (if rank = 0 then (bit : R (truncFieldWidth bits)) else 0)
        (if rank = 1 then (bit : R (truncFieldWidth bits)) else 0)
        a c recvd with
    | none => none
    | some mw =>
      if rank = 0 then
        some (mw + (1 - (if x.val < 2 ^ (k - kBitsLeftOut) % 2 ^ k
          then (1 : R (truncFieldWidth bits)) else 0)))
      else some mw

/-- `TruncAPr2::proc`, per-party view: `getTruncField` (throws above
128 bits), the rank ∈ {0, 1} enforcement, `computeMW`, then the local
combination `(x >> bits) - MW * 2^(k-bits) + rank` on the k-bit word.
The `sign` argument is received and discarded. -/
def TruncAPr2_proc (k bits : ℕ) (sign : SignType) (rank : ℕ) (x : R k)
    (a c recvd : R (truncFieldWidth bits)) : Option (R k) :=
  if bits ≤ 128 then
    if rank = 0 ∨ rank = 1 then
      match computeMW k bits rank x a c recvd with
      | none => none
      | some mw =>
        some (ring_rshift k bits x
          - ((mw.val : ℕ) : R k) * (((1 <<< (k - bits)) % 2 ^ k : ℕ) : R k)
          + (rank : R k))
    else none
  else none

/-!
## Theorems
-/

/-- Helper: summing a term that only rank 0 contributes. -/
lemma sum_ite_rank0 {M : Type} [AddCommMonoid M] {N : ℕ} (hN : 0 < N)
    (t : M) : (∑ i : Fin N, if (i : ℕ) = 0 then t else 0) = t := by
  calc (∑ i : Fin N, if (i : ℕ) = 0 then t else 0)
      = ∑ i : Fin N, if i = ⟨0, hN⟩ then t else 0 := by
        refine Finset.sum_congr rfl ?_
        intro i _
        by_cases hc : (i : ℕ) = 0
        · simp [Fin.ext_iff, hc]
        · simp [Fin.ext_iff, hc]
    _ = t := by
        rw [Finset.sum_ite_eq' Finset.univ (⟨0, hN⟩ : Fin N) (fun _ => t)]
        simp

/-- Beaver algebra shared by the multiplication kernels. -/
lemma beaver_combine (k : ℕ) (A B C SX SY : R k) (h : A * B = C) :
    C + (SX - A) * B + (SY - B) * A + (SX - A) * (SY - B) = SX * SY := by
  linear_combination -h

/-- C1: For every number of parties `N ≥ 2`, additive sharings of `x`
and `y`, and a consistent Beaver triple (`(∑ a_i) * (∑ b_i) = ∑ c_i`),
the per-party outputs of `MulAA` — `z_i = c_i + X*b_i + Y*a_i`, rank 0
adding `X*Y`, with `X = open(x-a)` and `Y = open(y-b)` — sum to `x * y`
mod 2^k. -/
theorem MulAA_reconstructs (k N : ℕ) (hN : 2 ≤ N)
    (xs ys as bs cs : Fin N → R k)
    (htriple : (∑ i, as i) * (∑ i, bs i) = ∑ i, cs i) :
    (∑ i : Fin N, MulAA_local k (i : ℕ) (as i) (bs i) (cs i)
        (openSum k N xs as) (openSum k N ys bs))
      = (∑ i, xs i) * (∑ i, ys i) := by
  have hN0 : 0 < N := by omega
  have hX : openSum k N xs as = (∑ i, xs i) - (∑ i, as i) := by
    unfold openSum
    rw [Finset.sum_sub_distrib]
  have hY : openSum k N ys bs = (∑ i, ys i) - (∑ i, bs i) := by
    unfold openSum
    rw [Finset.sum_sub_distrib]
  unfold MulAA_local
  rw [Finset.sum_add_distrib, Finset.sum_add_distrib, Finset.sum_add_distrib,
    sum_ite_rank0 hN0, ← Finset.sum_mul, ← Finset.sum_mul, hX, hY]
  have := beaver_combine k (∑ i, as i) (∑ i, bs i) (∑ i, cs i)
    (∑ i, xs i) (∑ i, ys i) htriple
  linear_combination this

/-- Witness for C1 at a concrete input: 2 parties over Z/2^2,
`x = 1 + 2`, `y = 1 + 1`, triple `a = 1+0, b = 0+1, c = 1+0`. -/
theorem MulAA_reconstructs_witness :
    (∑ i : Fin 2, MulAA_local 2 (i : ℕ)
        (![1, 0] i) (![0, 1] i) (![1, 0] i)
        (openSum 2 2 ![1, 2] ![1, 0]) (openSum 2 2 ![1, 1] ![0, 1]))
      = (∑ i, ![1, 2] i) * (∑ i, ![1, 1] i) :=
  MulAA_reconstructs 2 2 (by decide) ![1, 2] ![1, 1] ![1, 0] ![0, 1] ![1, 0]
    (by decide)

/-- C5: under the PRSS correlation model (per-party terms `r0_i - r1_i`
sum to zero over all ranks), `A2P` after `P2A` reconstructs the
plaintext exactly: only rank 0 adds the plaintext and the random terms
cancel. -/
theorem A2P_P2A_roundtrip (k N : ℕ) (hN : 0 < N) (x : R k)
    (r0 r1 : Fin N → R k)
    (hprss : (∑ i : Fin N, (r0 i - r1 i)) = 0) :
    A2P k N (fun i => P2A_local k (i : ℕ) x (r0 i) (r1 i)) = x := by
  unfold A2P P2A_local
  rw [Finset.sum_add_distrib, hprss, sum_ite_rank0 hN]
  simp

/-- Witness for C5 at a concrete input: 2 parties over Z/2^3, `x = 5`,
PRSS pairs `(3, 1)` and `(1, 3)`. -/
theorem A2P_P2A_roundtrip_witness :
    A2P 3 2 (fun i => P2A_local 3 (i : ℕ) 5 (![3, 1] i) (![1, 3] i)) = 5 :=
  A2P_P2A_roundtrip 3 2 (by decide) 5 ![3, 1] ![1, 3] (by decide)

/-- C3: with `x` owned by rank 0 and `y` by rank 1 and a Beaver pair
with `a0 * a1 = c0 + c1`, rank 0 outputs `x*(y + a1) + c0`, rank 1
outputs `-a1*(x + a0) + c1`, and the two outputs sum to `x * y` mod 2^k;
a rank other than 0 or 1 fails fatally, as does a shared owner. -/
theorem MulVVS_correct (k : ℕ) (x y a0 a1 c0 c1 : R k)
    (htriple : a0 * a1 = c0 + c1) :
    MulVVS_local k 0 0 1 x y a0 c0 (a1 + y)
        = some (x * (y + a1) + c0) ∧
    MulVVS_local k 1 0 1 x y a1 c1 (a0 + x)
        = some (-a1 * (x + a0) + c1) ∧
    (x * (y + a1) + c0) + (-a1 * (x + a0) + c1) = x * y ∧
    (∀ r : ℕ, r ≠ 0 → r ≠ 1 →
      MulVVS_local k r 0 1 x y a0 c0 (a1 + y) = none) ∧
    (∀ o r : ℕ, MulVVS_local k r o o x y a0 c0 (a1 + y) = none) := by
  refine ⟨?_, ?_, ?_, ?_, ?_⟩
  · simp [MulVVS_local]
    ring
  · simp [MulVVS_local]
    ring
  · linear_combination -htriple
  · intro r hr0 hr1
    have h : ¬(r = 0 ∨ r = 1) := by omega
    simp [MulVVS_local, h]
  · intro o r
    simp [MulVVS_local]

/-- Witness for C3 at a concrete input over Z/2^3:
`x = 3, y = 5, a0 = 2, a1 = 3, c0 = 4, c1 = 2` (`2*3 = 4+2 = 6`). -/
theorem MulVVS_correct_witness :
    MulVVS_local 3 0 0 1 3 5 2 4 (3 + 5) = some (3 * (5 + 3) + 4) ∧
    MulVVS_local 3 1 0 1 3 5 3 2 (2 + 3) = some (-3 * (3 + 2) + 2) ∧
    ((3 : R 3) * (5 + 3) + 4) + (-3 * (3 + 2) + 2) = 3 * 5 ∧
    (∀ r : ℕ, r ≠ 0 → r ≠ 1 →
      MulVVS_local 3 r 0 1 3 5 2 4 (3 + 5) = none) ∧
    (∀ o r : ℕ, MulVVS_local 3 r o o 3 5 2 4 (3 + 5) = none) :=
  MulVVS_correct 3 3 5 2 3 4 2 (by decide)

/-- C4 counterexample: `RandA` does not draw a PRSS pair; with a private
draw of 0 and a PRSS pair `(4, 0)` over Z/2^3 the code returns 0 while
the claimed PRSS-pair construction returns 1. -/
theorem RandA_not_prss :
    RandA 3 ⟨0, (4, 0)⟩ ≠ RandA_claimed 3 ⟨0, (4, 0)⟩ := by
  decide

/-- C4 amended: `RandA` draws a single *private* random value (it never
reads the PRSS pair) and returns it right-shifted by 2 bits, performing
no communication. -/
theorem RandA_priv_shift (k : ℕ) (st st2 : PrgDraw k)
    (hpriv : st.priv = st2.priv) :
    RandA k st = RandA k st2 ∧
    (RandA k st).1 = ((st.priv.val >>> 2 : ℕ) : R k) ∧
    (RandA k st).2 = 0 := by
  refine ⟨?_, rfl, rfl⟩
  simp [RandA, hpriv]

/-- Witness for C4's amended theorem: two draws over Z/2^3 sharing the
private value 5 but with different PRSS pairs produce the same output. -/
theorem RandA_priv_shift_witness :
    RandA 3 ⟨5, (1, 2)⟩ = RandA 3 ⟨5, (6, 7)⟩ ∧
    (RandA 3 ⟨5, (1, 2)⟩).1 = (((5 : R 3).val >>> 2 : ℕ) : R 3) ∧
    (RandA 3 ⟨5, (1, 2)⟩).2 = 0 :=
  RandA_priv_shift 3 ⟨5, (1, 2)⟩ ⟨5, (6, 7)⟩ rfl

/-- C6: for two parties with shares `x0, x1` of `x` and arbitrary ring
values `y0, y1`, and a consistent Beaver triple for the masked operands,
the outputs of `MulA1B` sum to `x * (lowbit y0 XOR lowbit y1)`
mod 2^k. -/
theorem MulA1B_reconstructs (k : ℕ) (x0 x1 y0 y1 a0 a1 b0 b1 c0 c1 : R k)
    (htriple : (a0 + a1) * (b0 + b1) = c0 + c1) :
    (MulA1B_local k 0 x0 y0 a0 b0 c0
        ((MulA1B_xx k x0 y0 + MulA1B_xx k x1 y1) - (a0 + a1))
        ((bitmask1 k y0 + bitmask1 k y1) - (b0 + b1))
      + MulA1B_local k 1 x1 y1 a1 b1 c1
        ((MulA1B_xx k x0 y0 + MulA1B_xx k x1 y1) - (a0 + a1))
        ((bitmask1 k y0 + bitmask1 k y1) - (b0 + b1)))
      = (x0 + x1) * (((y0.val % 2) ^^^ (y1.val % 2) : ℕ) : R k) := by
  unfold MulA1B_local MulA1B_xx
  rcases Nat.mod_two_eq_zero_or_one y0.val with h0 | h0 <;>
    rcases Nat.mod_two_eq_zero_or_one y1.val with h1 | h1 <;>
      simp only [bitmask1, h0, h1] <;> norm_num <;> linear_combination -htriple

/-- Witness for C6 at a concrete input over Z/2^3:
`x0 = 3, x1 = 2, y0 = 5` (low bit 1), `y1 = 6` (low bit 0), triple
`a = 1+1, b = 1+0, c = 1+1` (`2*1 = 2`). -/
theorem MulA1B_reconstructs_witness :
    (MulA1B_local 3 0 3 5 1 1 1
        ((MulA1B_xx 3 3 5 + MulA1B_xx 3 2 6) - (1 + 1))
        ((bitmask1 3 5 + bitmask1 3 6) - (1 + 0))
      + MulA1B_local 3 1 2 6 1 0 1
        ((MulA1B_xx 3 3 5 + MulA1B_xx 3 2 6) - (1 + 1))
        ((bitmask1 3 5 + bitmask1 3 6) - (1 + 0)))
      = (3 + 2) * ((((5 : R 3)).val % 2 ^^^ ((6 : R 3)).val % 2 : ℕ) : R 3) :=
  MulA1B_reconstructs 3 3 2 5 6 1 1 1 0 1 1 (by decide)

/-- C7 counterexample: with vectorized opening enabled (the default,
`disableVec = false`), the second cached invocation and the second
uncached invocation of the same `MulAA` both take exactly one
communication round (the uncached one batches both openings into a
single round), so the cached rerun does *not* issue strictly fewer
rounds.  Concretely: one party over Z/2, zero shares and triple. -/
theorem MulAA_cache_rounds_not_strictly_fewer :
    ¬ ((MulAASys 1 1 false false
          (MulAASys 1 1 false false (cacheOn 1) (cacheOff 1)
            (fun _ => 0) (fun _ => 0) ⟨fun _ => 0, fun _ => 0, fun _ => 0⟩).cx
          (cacheOff 1) (fun _ => 0) (fun _ => 0)
          ⟨fun _ => 0, fun _ => 0, fun _ => 0⟩).rounds
        < (MulAASys 1 1 false false (cacheOff 1) (cacheOff 1)
            (fun _ => 0) (fun _ => 0)
            ⟨fun _ => 0, fun _ => 0, fun _ => 0⟩).rounds) := by
  decide

/-- C7 amended: assume the Beaver source deterministically reproduces
the mask of the replayed operand (the second invocation's triple `t2`
has the same `a`-shares as the first invocation's `t1`).  Then, with
caching enabled on `x`, the second invocation of the same
multiplication yields per-party outputs identical to the invocation
with caching disabled, and it all-reduces strictly fewer operands — the
opening of `x - a` is skipped and the cached value reused.  Its round
count never exceeds the uncached invocation's; it is strictly smaller
whenever vectorized (batched) opening is disabled, while with batching
enabled both take one round. -/
theorem MulAA_cache_transparent (k N : ℕ) (disableVec : Bool)
    (xs ys : Fin N → R k) (t1 t2 : Triple k N)
    (ha : ∀ i, t2.a i = t1.a i) :
    (MulAASys k N disableVec false
        (MulAASys k N disableVec false (cacheOn k) (cacheOff k) xs ys t1).cx
        (cacheOff k) xs ys t2).z
      = (MulAASys k N disableVec false (cacheOff k) (cacheOff k)
          xs ys t2).z ∧
    (MulAASys k N disableVec false
        (MulAASys k N disableVec false (cacheOn k) (cacheOff k) xs ys t1).cx
        (cacheOff k) xs ys t2).opens
      = 1 ∧
    (MulAASys k N disableVec false (cacheOff k) (cacheOff k)
        xs ys t2).opens = 2 ∧
    (MulAASys k N disableVec false
        (MulAASys k N disableVec false (cacheOn k) (cacheOff k) xs ys t1).cx
        (cacheOff k) xs ys t2).rounds
      ≤ (MulAASys k N disableVec false (cacheOff k) (cacheOff k)
          xs ys t2).rounds ∧
    (disableVec = true →
      (MulAASys k N disableVec false
          (MulAASys k N disableVec false (cacheOn k) (cacheOff k) xs ys t1).cx
          (cacheOff k) xs ys t2).rounds
        < (MulAASys k N disableVec false (cacheOff k) (cacheOff k)
            xs ys t2).rounds) := by
  have hopen : openSum k N xs t2.a = openSum k N xs t1.a := by
    unfold openSum
    exact Finset.sum_congr rfl fun i _ => by rw [ha i]
  cases disableVec <;>
    refine ⟨?_, rfl, rfl, ?_, ?_⟩ <;>
      simp [MulAASys, MulOpenSys, cacheOn, cacheOff, hopen]

/-- Witness for C7's amended theorem at a concrete input: two parties
over Z/2^2, vectorization disabled, shares `x = (1, 2)`, `y = (3, 0)`,
and two triples agreeing on their `a`-shares. -/
theorem MulAA_cache_transparent_witness :
    ((MulAASys 2 2 true false
        (MulAASys 2 2 true false (cacheOn 2) (cacheOff 2)
          ![1, 2] ![3, 0] ⟨![1, 0], ![0, 1], ![2, 3]⟩).cx
        (cacheOff 2) ![1, 2] ![3, 0] ⟨![1, 0], ![2, 1], ![0, 3]⟩).z
      = (MulAASys 2 2 true false (cacheOff 2) (cacheOff 2)
          ![1, 2] ![3, 0] ⟨![1, 0], ![2, 1], ![0, 3]⟩).z ∧
    (MulAASys 2 2 true false
        (MulAASys 2 2 true false (cacheOn 2) (cacheOff 2)
          ![1, 2] ![3, 0] ⟨![1, 0], ![0, 1], ![2, 3]⟩).cx
        (cacheOff 2) ![1, 2] ![3, 0] ⟨![1, 0], ![2, 1], ![0, 3]⟩).opens
      = 1 ∧
    (MulAASys 2 2 true false (cacheOff 2) (cacheOff 2)
        ![1, 2] ![3, 0] ⟨![1, 0], ![2, 1], ![0, 3]⟩).opens = 2 ∧
    (MulAASys 2 2 true false
        (MulAASys 2 2 true false (cacheOn 2) (cacheOff 2)
          ![1, 2] ![3, 0] ⟨![1, 0], ![0, 1], ![2, 3]⟩).cx
        (cacheOff 2) ![1, 2] ![3, 0] ⟨![1, 0], ![2, 1], ![0, 3]⟩).rounds
      ≤ (MulAASys 2 2 true false (cacheOff 2) (cacheOff 2)
          ![1, 2] ![3, 0] ⟨![1, 0], ![2, 1], ![0, 3]⟩).rounds ∧
    (true = true →
      (MulAASys 2 2 true false
          (MulAASys 2 2 true false (cacheOn 2) (cacheOff 2)
            ![1, 2] ![3, 0] ⟨![1, 0], ![0, 1], ![2, 3]⟩).cx
          (cacheOff 2) ![1, 2] ![3, 0] ⟨![1, 0], ![2, 1], ![0, 3]⟩).rounds
        < (MulAASys 2 2 true false (cacheOff 2) (cacheOff 2)
            ![1, 2] ![3, 0] ⟨![1, 0], ![2, 1], ![0, 3]⟩).rounds)) :=
  MulAA_cache_transparent 2 2 true ![1, 2] ![3, 0]
    ⟨![1, 0], ![0, 1], ![2, 3]⟩ ⟨![1, 0], ![2, 1], ![0, 3]⟩
    (by decide)

/-- C8 counterexample: `AddAP` invoked at rank 1 with operands of
different fields (FM32 vs FM64) does not fail at all — it checks only
element counts and returns `lhs` unchanged — contradicting the claim
that every two-operand kernel fails fatally on a field mismatch. -/
theorem AddAP_no_field_check :
    (Arr.mk FieldT.FM32 [4]).field ≠ (Arr.mk FieldT.FM64 [4]).field ∧
    AddAPT 1 (Arr.mk FieldT.FM32 [4]) (Arr.mk FieldT.FM64 [4])
      = (some (Arr.mk FieldT.FM32 [4]), 0) := by
  decide

/-- C8 amended: `AddAA` (element-type equality) and `MulA1B` (explicit
field equality) fail fatally on a field mismatch before issuing any
communication; `AddAP`, however, checks only element counts — a rank
other than 0 returns `lhs` unchanged without failing, whatever the
fields, and with no communication. -/
theorem field_mismatch_checks (lhs rhs : Arr) (rank : ℕ)
    (aB bB cB : Buffer)
    (hf : lhs.field ≠ rhs.field) (hr : rank ≠ 0)
    (hn : lhs.numel = rhs.numel) :
    AddAAT lhs rhs = (none, 0) ∧
    MulA1BT lhs rhs aB bB cB = (none, 0) ∧
    AddAPT rank lhs rhs = (some lhs, 0) := by
  refine ⟨?_, ?_, ?_⟩
  · unfold AddAAT
    simp [hn, hf]
  · unfold MulA1BT
    simp [hf]
  · unfold AddAPT
    simp [hn, hr]

/-- Witness for C8's amended theorem: FM32 vs FM64 operands of one
element, rank 1. -/
theorem field_mismatch_checks_witness :
    AddAAT (Arr.mk FieldT.FM32 [1]) (Arr.mk FieldT.FM64 [1]) = (none, 0) ∧
    MulA1BT (Arr.mk FieldT.FM32 [1]) (Arr.mk FieldT.FM64 [1])
      ⟨4⟩ ⟨4⟩ ⟨4⟩ = (none, 0) ∧
    AddAPT 1 (Arr.mk FieldT.FM32 [1]) (Arr.mk FieldT.FM64 [1])
      = (some (Arr.mk FieldT.FM32 [1]), 0) :=
  field_mismatch_checks (Arr.mk FieldT.FM32 [1]) (Arr.mk FieldT.FM64 [1])
    1 ⟨4⟩ ⟨4⟩ ⟨4⟩ (by decide) (by decide) (by decide)

/-- C10: `MulOpen` (both the elementwise and the `mmul` branch),
`SquareA`, and `MulVVS` fail fatally whenever any Beaver reply buffer's
byte size differs from the expected element count times the field's
element size, and they do so having issued zero communication — before
any opened value could be combined into an output share.  Each
conjunct's hypothesis is the negation of that kernel's full
`SPU_ENFORCE` size-check group, so any single wrong buffer (a, b or c)
triggers the failure. -/
theorem beaver_buffer_size_enforced (mmul : Bool) (x y : Arr)
    (aB bB cB : Buffer) (rank xOwner yOwner : ℕ) :
    (∀ zs : List ℕ, mulOpenZShape mmul x y = some zs →
      ¬(aB.size = x.numel * sizeOfField x.field ∧
        bB.size = (if mmul then y.numel else x.numel) * sizeOfField x.field ∧
        cB.size = (if mmul then zs.prod else x.numel)
            * sizeOfField x.field) →
      MulOpenT mmul x y aB bB cB = (none, 0)) ∧
    (¬(aB.size = x.numel * sizeOfField x.field ∧
        bB.size = x.numel * sizeOfField x.field) →
      SquareAT x aB bB = (none, 0)) ∧
    (¬(aB.size = x.numel * sizeOfField x.field ∧
        cB.size = x.numel * sizeOfField x.field) →
      MulVVST rank xOwner yOwner x y aB cB = (none, 0)) := by
  refine ⟨?_, ?_, ?_⟩
  · intro zs hzs hbad
    cases mmul
    · simp only [Bool.false_eq_true, if_false] at hbad
      simp [MulOpenT, hzs, hbad]
    · simp only [if_true] at hbad
      simp [MulOpenT, hzs, hbad]
  · intro hbad
    unfold SquareAT
    rw [if_neg hbad]
  · intro hbad
    unfold MulVVST
    rcases Decidable.em (xOwner = yOwner) with h1 | h1
    · rw [if_pos h1]
    · rw [if_neg h1]
      rcases Decidable.em (rank = xOwner ∨ rank = yOwner) with h2 | h2
      · rw [if_pos h2, if_neg hbad]
      · rw [if_neg h2]

/-- Witness for C10: elementwise 3-element FM32 arrays expect 12-byte
buffers and an 8-byte `b`-buffer is rejected; a 2x3 by 3x4 FM32 `mmul`
expects a 32-byte `c`-buffer and 16 bytes are rejected; `SquareA` with a
wrong `b`-buffer and `MulVVS` with a wrong `c`-buffer are rejected — all
with zero communication. -/
theorem beaver_buffer_size_enforced_witness :
    MulOpenT false (Arr.mk FieldT.FM32 [3]) (Arr.mk FieldT.FM32 [3])
      ⟨12⟩ ⟨8⟩ ⟨12⟩ = (none, 0) ∧
    MulOpenT true (Arr.mk FieldT.FM32 [2, 3]) (Arr.mk FieldT.FM32 [3, 4])
      ⟨24⟩ ⟨48⟩ ⟨16⟩ = (none, 0) ∧
    SquareAT (Arr.mk FieldT.FM32 [3]) ⟨12⟩ ⟨8⟩ = (none, 0) ∧
    MulVVST 0 0 1 (Arr.mk FieldT.FM32 [3]) (Arr.mk FieldT.FM32 [3])
      ⟨12⟩ ⟨8⟩ = (none, 0) :=
  ⟨(beaver_buffer_size_enforced false (Arr.mk FieldT.FM32 [3])
      (Arr.mk FieldT.FM32 [3]) ⟨12⟩ ⟨8⟩ ⟨12⟩ 0 0 1).1 [3]
      (by decide) (by decide),
   (beaver_buffer_size_enforced true (Arr.mk FieldT.FM32 [2, 3])
      (Arr.mk FieldT.FM32 [3, 4]) ⟨24⟩ ⟨48⟩ ⟨16⟩ 0 0 1).1 [2, 4]
      (by decide) (by decide),
   (beaver_buffer_size_enforced false (Arr.mk FieldT.FM32 [3])
      (Arr.mk FieldT.FM32 [3]) ⟨12⟩ ⟨8⟩ ⟨12⟩ 0 0 1).2.1 (by decide),
   (beaver_buffer_size_enforced false (Arr.mk FieldT.FM32 [3])
      (Arr.mk FieldT.FM32 [3]) ⟨12⟩ ⟨12⟩ ⟨8⟩ 0 0 1).2.2 (by decide)⟩

/-- C9: the `sign` argument of `TruncA`, `TruncAPr` and `TruncAPr2` is
received and discarded (`(void)sign`): any two invocations differing
only in `sign` produce identical outputs. -/
theorem trunc_sign_ignored (k bits worldSize rank : ℕ)
    (s1 s2 : SignType) (x rb x_r : R k) (c : ℕ) (rc rbp : R k)
    (a2 c2 recvd : R (truncFieldWidth bits)) :
    TruncA_proc k bits s1 worldSize rank x rb x_r
      = TruncA_proc k bits s2 worldSize rank x rb x_r ∧
    TruncAPr_local k bits s1 rank c rc rbp
      = TruncAPr_local k bits s2 rank c rc rbp ∧
    TruncAPr2_proc k bits s1 rank x a2 c2 recvd
      = TruncAPr2_proc k bits s2 rank x a2 c2 recvd :=
  ⟨rfl, rfl, rfl⟩

/-- Splitting the local recombination of `TruncAPr` into a linear part
every rank contributes and the rank-0-only part. -/
lemma TruncAPr_local_split (k bits : ℕ) (sign : SignType) (rank : ℕ)
    (c : ℕ) (rc rb : R k) :
    TruncAPr_local k bits sign rank c rc rb
      = (- rc + (rb - 2 * ((c / 2 ^ (k - 1) : ℕ) : R k) * rb)
            * ((2 ^ (k - 1 - bits) : ℕ) : R k))
        + (if rank = 0 then
            (((c * 2 % 2 ^ k) / 2 ^ (1 + bits) : ℕ) : R k)
              + ((c / 2 ^ (k - 1) : ℕ) : R k)
                * ((2 ^ (k - 1 - bits) : ℕ) : R k)
              - ((2 ^ (k - 2 - bits) : ℕ) : R k)
          else 0) := by
  unfold TruncAPr_local
  simp only [Nat.shiftRight_eq_div_pow, Nat.shiftLeft_eq, pow_one]
  by_cases h : rank = 0
  · simp only [h, if_pos]
    ring
  · simp only [h, if_neg, if_false]
    ring

/-- C2: for `bits < k - 2` and a secret `x` with `|x| < 2^(k-2)` shared
additively, if the Beaver `TruncPr` triple `(r, rc, rb)` satisfies its
consistency invariant (`r` reconstructs to some `r < 2^k`, `rc` to
`(r mod 2^(k-1)) >> bits`, and `rb` to bit `k-1` of `r`), then the sum of
the parties' `TruncAPr` outputs equals the arithmetic right shift
`x >> bits` plus a carry `e ∈ {0, 1}` — within 1 unit in the last
place. -/
theorem TruncAPr_error_bound (k bits N : ℕ) (sign : SignType)
    (hbits : bits < k - 2) (hN : 0 < N)
    (x : ℤ) (hx1 : -(2 ^ (k - 2) : ℤ) ≤ x) (hx2 : x < 2 ^ (k - 2))
    (r : ℕ) (hrlt : r < 2 ^ k)
    (xs rs rcs rbs : Fin N → R k)
    (hxs : (∑ i, xs i) = (x : R k))
    (hrs : (∑ i, rs i) = (r : R k))
    (hrcs : (∑ i, rcs i) = (((r % 2 ^ (k - 1)) / 2 ^ bits : ℕ) : R k))
    (hrbs : (∑ i, rbs i) = ((r / 2 ^ (k - 1) : ℕ) : R k)) :
    ∃ e : ℕ, e ≤ 1 ∧
      (∑ i : Fin N, TruncAPr_local k bits sign (i : ℕ)
          (TruncAPr_open k N xs rs) (rcs i) (rbs i))
        = ((x >>> bits : ℤ) : R k) + ((e : ℕ) : R k) := by
  obtain ⟨D, rfl⟩ : ∃ D, k = bits + D + 3 := ⟨k - bits - 3, by omega⟩
  have e1 : bits + D + 3 - 1 = bits + D + 2 := by omega
  have e2 : bits + D + 3 - 2 = bits + D + 1 := by omega
  have e3 : bits + D + 3 - 1 - bits = D + 2 := by omega
  have e4 : bits + D + 3 - 2 - bits = D + 1 := by omega
  have e3x : bits + D + 2 - bits = D + 2 := by omega
  have e4x : bits + D + 1 - bits = D + 1 := by omega
  rw [e2] at hx1 hx2
  rw [e1] at hrcs hrbs
  -- the re-centered plaintext
  have hxnn : (0 : ℤ) ≤ x + 2 ^ (bits + D + 1) := by linarith
  obtain ⟨x', hx'z⟩ : ∃ t : ℕ, (t : ℤ) = x + 2 ^ (bits + D + 1) :=
    ⟨(x + 2 ^ (bits + D + 1)).toNat, Int.toNat_of_nonneg hxnn⟩
  have hx'lt : x' < 2 ^ (bits + D + 2) := by
    have h2 : ((2 : ℤ)) ^ (bits + D + 2) = 2 ^ (bits + D + 1) * 2 :=
      pow_succ 2 (bits + D + 1)
    have : (x' : ℤ) < 2 ^ (bits + D + 2) := by
      rw [hx'z, h2]
      linarith
    exact_mod_cast this
  -- the opened value c
  have hc_cast : (∑ i : Fin N, TruncAPr_mask (bits + D + 3) (i : ℕ) (xs i) (rs i))
      = ((x' + r : ℕ) : R (bits + D + 3)) := by
    have hptw : ∀ i : Fin N,
        TruncAPr_mask (bits + D + 3) (i : ℕ) (xs i) (rs i)
          = (xs i + rs i)
            + (if (i : ℕ) = 0
               then ((2 ^ (bits + D + 1) : ℕ) : R (bits + D + 3)) else 0) := by
      intro i
      unfold TruncAPr_mask
      rw [e2]
      ring
    calc (∑ i : Fin N, TruncAPr_mask (bits + D + 3) (i : ℕ) (xs i) (rs i))
        = ∑ i : Fin N, ((xs i + rs i)
            + (if (i : ℕ) = 0
               then ((2 ^ (bits + D + 1) : ℕ) : R (bits + D + 3)) else 0)) :=
          Finset.sum_congr rfl fun i _ => hptw i
      _ = ((∑ i, xs i) + (∑ i, rs i))
            + ((2 ^ (bits + D + 1) : ℕ) : R (bits + D + 3)) := by
          rw [Finset.sum_add_distrib, Finset.sum_add_distrib,
            sum_ite_rank0 hN]
      _ = ((x' + r : ℕ) : R (bits + D + 3)) := by
          rw [hxs, hrs]
          have hx'R : ((x' : ℕ) : R (bits + D + 3))
              = (x : R (bits + D + 3))
                + ((2 ^ (bits + D + 1) : ℕ) : R (bits + D + 3)) := by
            calc ((x' : ℕ) : R (bits + D + 3))
                = (((x' : ℤ)) : R (bits + D + 3)) := by push_cast; ring
              _ = ((x + 2 ^ (bits + D + 1) : ℤ) : R (bits + D + 3)) := by
                  rw [hx'z]
              _ = (x : R (bits + D + 3))
                  + ((2 ^ (bits + D + 1) : ℕ) : R (bits + D + 3)) := by
                  push_cast; ring
          rw [Nat.cast_add, hx'R]
          ring
  have hcval : TruncAPr_open (bits + D + 3) N xs rs
      = (x' + r) % 2 ^ (bits + D + 3) := by
    unfold TruncAPr_open
    rw [hc_cast, ZMod.val_natCast]
  -- Nat-level decomposition of r and x' + r
  obtain ⟨r1, hr1def⟩ : ∃ t : ℕ, r % 2 ^ (bits + D + 2) = t := ⟨_, rfl⟩
  obtain ⟨rbn, hrbndef⟩ : ∃ t : ℕ, r / 2 ^ (bits + D + 2) = t := ⟨_, rfl⟩
  obtain ⟨u, hudef⟩ : ∃ t : ℕ, (x' + r1) / 2 ^ (bits + D + 2) = t := ⟨_, rfl⟩
  obtain ⟨c2, hc2def⟩ : ∃ t : ℕ, (x' + r1) % 2 ^ (bits + D + 2) = t := ⟨_, rfl⟩
  rw [hr1def] at hrcs
  rw [hrbndef] at hrbs
  have hp1pos : (0 : ℕ) < 2 ^ (bits + D + 2) := by positivity
  have hPP1 : (2 : ℕ) ^ (bits + D + 3) = 2 ^ (bits + D + 2) * 2 :=
    pow_succ 2 (bits + D + 2)
  have hrbn1 : rbn ≤ 1 := by
    rw [← hrbndef]
    have : r / 2 ^ (bits + D + 2) < 2 :=
      Nat.div_lt_of_lt_mul (by rw [← hPP1]; exact hrlt)
    omega
  have hr1lt : r1 < 2 ^ (bits + D + 2) := by
    rw [← hr1def]; exact Nat.mod_lt _ hp1pos
  have hu1 : u ≤ 1 := by
    rw [← hudef]
    have : (x' + r1) / 2 ^ (bits + D + 2) < 2 :=
      Nat.div_lt_of_lt_mul (by omega)
    omega
  have hc2lt : c2 < 2 ^ (bits + D + 2) := by
    rw [← hc2def]; exact Nat.mod_lt _ hp1pos
  have hvdecomp : c2 + 2 ^ (bits + D + 2) * u = x' + r1 := by
    rw [← hc2def, ← hudef]; exact Nat.mod_add_div _ _
  have hrdecomp : r1 + 2 ^ (bits + D + 2) * rbn = r := by
    rw [← hr1def, ← hrbndef]; exact Nat.mod_add_div _ _
  -- decomposing the opened value
  have hcdecomp : (x' + r) % 2 ^ (bits + D + 3)
      = c2 + ((u + rbn) % 2) * 2 ^ (bits + D + 2) := by
    have hxr : x' + r = c2 + (u + rbn) * 2 ^ (bits + D + 2) := by
      have hdist : (u + rbn) * 2 ^ (bits + D + 2)
          = 2 ^ (bits + D + 2) * u + 2 ^ (bits + D + 2) * rbn := by ring
      omega
    rw [hxr]
    interval_cases u <;> interval_cases rbn
    · norm_num
      exact Nat.mod_eq_of_lt (by omega)
    · norm_num
      exact Nat.mod_eq_of_lt (by omega)
    · norm_num
      exact Nat.mod_eq_of_lt (by omega)
    · have h22 : c2 + (1 + 1) * 2 ^ (bits + D + 2)
          = c2 + 2 ^ (bits + D + 3) := by rw [hPP1]; ring
      rw [h22, Nat.add_mod_right]
      norm_num
      exact Nat.mod_eq_of_lt (by omega)
  have hck1 : ((x' + r) % 2 ^ (bits + D + 3)) / 2 ^ (bits + D + 2)
      = (u + rbn) % 2 := by
    rw [hcdecomp, Nat.add_mul_div_right _ _ hp1pos, Nat.div_eq_of_lt hc2lt]
    omega
  have hcmod2 : ((x' + r) % 2 ^ (bits + D + 3)) * 2 % 2 ^ (bits + D + 3)
      = 2 * c2 := by
    rw [hcdecomp]
    have h22 : (c2 + (u + rbn) % 2 * 2 ^ (bits + D + 2)) * 2
        = 2 * c2 + ((u + rbn) % 2) * 2 ^ (bits + D + 3) := by
      rw [hPP1]; ring
    rw [h22, Nat.add_mul_mod_self_right]
    exact Nat.mod_eq_of_lt (by omega)
  have hchat : (((x' + r) % 2 ^ (bits + D + 3)) * 2 % 2 ^ (bits + D + 3))
      / 2 ^ (1 + bits) = c2 / 2 ^ bits := by
    rw [hcmod2]
    have h2 : (2 : ℕ) ^ (1 + bits) = 2 * 2 ^ bits := by
      rw [pow_add, pow_one]
    rw [h2]
    exact Nat.mul_div_mul_left _ _ (by norm_num)
  -- name the opened value and rewrite its derived quantities
  obtain ⟨cN, hcN⟩ : ∃ t : ℕ, TruncAPr_open (bits + D + 3) N xs rs = t :=
    ⟨_, rfl⟩
  have hcN2 : cN = (x' + r) % 2 ^ (bits + D + 3) := by rw [← hcN, hcval]
  have hck1N : cN / 2 ^ (bits + D + 2) = (u + rbn) % 2 := by
    rw [hcN2, hck1]
  have hchatN : (cN * 2 % 2 ^ (bits + D + 3)) / 2 ^ (1 + bits)
      = c2 / 2 ^ bits := by
    rw [hcN2, hchat]
  -- the reconstructed sum
  have hsum : (∑ i : Fin N, TruncAPr_local (bits + D + 3) bits sign (i : ℕ)
        cN (rcs i) (rbs i))
      = (- (∑ i, rcs i)
          + ((∑ i, rbs i)
              - 2 * ((cN / 2 ^ (bits + D + 2) : ℕ) : R (bits + D + 3))
                * (∑ i, rbs i))
            * ((2 ^ (D + 2) : ℕ) : R (bits + D + 3)))
        + ((((cN * 2 % 2 ^ (bits + D + 3)) / 2 ^ (1 + bits) : ℕ)
              : R (bits + D + 3))
            + ((cN / 2 ^ (bits + D + 2) : ℕ) : R (bits + D + 3))
              * ((2 ^ (D + 2) : ℕ) : R (bits + D + 3))
            - ((2 ^ (D + 1) : ℕ) : R (bits + D + 3))) := by
    have hptw : ∀ i : Fin N,
        TruncAPr_local (bits + D + 3) bits sign (i : ℕ) cN (rcs i) (rbs i)
          = (- (rcs i)
              + ((rbs i)
                  - 2 * ((cN / 2 ^ (bits + D + 2) : ℕ) : R (bits + D + 3))
                    * (rbs i))
                * ((2 ^ (D + 2) : ℕ) : R (bits + D + 3)))
            + (if (i : ℕ) = 0 then
                (((cN * 2 % 2 ^ (bits + D + 3)) / 2 ^ (1 + bits) : ℕ)
                    : R (bits + D + 3))
                  + ((cN / 2 ^ (bits + D + 2) : ℕ) : R (bits + D + 3))
                    * ((2 ^ (D + 2) : ℕ) : R (bits + D + 3))
                  - ((2 ^ (D + 1) : ℕ) : R (bits + D + 3))
              else 0) := by
      intro i
      have h := TruncAPr_local_split (bits + D + 3) bits sign (i : ℕ) cN
        (rcs i) (rbs i)
      simpa only [e1, e2, e3, e4, e3x, e4x] using h
    calc (∑ i : Fin N, TruncAPr_local (bits + D + 3) bits sign (i : ℕ)
          cN (rcs i) (rbs i))
        = ∑ i : Fin N, ((- (rcs i)
              + ((rbs i)
                  - 2 * ((cN / 2 ^ (bits + D + 2) : ℕ) : R (bits + D + 3))
                    * (rbs i))
                * ((2 ^ (D + 2) : ℕ) : R (bits + D + 3)))
            + (if (i : ℕ) = 0 then
                (((cN * 2 % 2 ^ (bits + D + 3)) / 2 ^ (1 + bits) : ℕ)
                    : R (bits + D + 3))
                  + ((cN / 2 ^ (bits + D + 2) : ℕ) : R (bits + D + 3))
                    * ((2 ^ (D + 2) : ℕ) : R (bits + D + 3))
                  - ((2 ^ (D + 1) : ℕ) : R (bits + D + 3))
              else 0)) :=
          Finset.sum_congr rfl fun i _ => hptw i
      _ = _ := by
          rw [Finset.sum_add_distrib, Finset.sum_add_distrib,
            sum_ite_rank0 hN, Finset.sum_neg_distrib, ← Finset.sum_mul,
            Finset.sum_sub_distrib, ← Finset.mul_sum]
  rw [hcN, hsum, hrcs, hrbs, hck1N, hchatN]
  -- the carry bit
  obtain ⟨e0, he0def⟩ : ∃ t : ℕ,
      (if 2 ^ bits ≤ x' % 2 ^ bits + r1 % 2 ^ bits then 1 else 0) = t :=
    ⟨_, rfl⟩
  have he01 : e0 ≤ 1 := by
    rw [← he0def]
    split <;> norm_num
  refine ⟨e0, he01, ?_⟩
  -- the division identity, in ℕ
  have hkey : c2 / 2 ^ bits + u * 2 ^ (D + 2)
      = x' / 2 ^ bits + r1 / 2 ^ bits + e0 := by
    have hsplitP : (2 : ℕ) ^ (bits + D + 2) = 2 ^ (D + 2) * 2 ^ bits := by
      rw [← pow_add]
      ring_nf
    have h1 : (x' + r1) / 2 ^ bits = c2 / 2 ^ bits + u * 2 ^ (D + 2) := by
      have hv : x' + r1 = c2 + (u * 2 ^ (D + 2)) * 2 ^ bits := by
        rw [← hvdecomp, hsplitP]
        ring
      rw [hv, Nat.add_mul_div_right _ _ (by positivity : (0:ℕ) < 2 ^ bits)]
    have h2 : (x' + r1) / 2 ^ bits = x' / 2 ^ bits + r1 / 2 ^ bits + e0 := by
      rw [Nat.add_div (by positivity : (0:ℕ) < 2 ^ bits), he0def]
    omega
  have hkeyR : ((c2 / 2 ^ bits : ℕ) : R (bits + D + 3))
      + ((u : ℕ) : R (bits + D + 3)) * (2 : R (bits + D + 3)) ^ (D + 2)
      = ((x' / 2 ^ bits : ℕ) : R (bits + D + 3))
        + ((r1 / 2 ^ bits : ℕ) : R (bits + D + 3))
        + ((e0 : ℕ) : R (bits + D + 3)) := by
    have := congrArg (fun t : ℕ => ((t : ℕ) : R (bits + D + 3))) hkey
    push_cast at this
    linear_combination this
  -- the x' division, in ℤ, then in the ring
  have hxdiv : ((x' / 2 ^ bits : ℕ) : ℤ) = x / 2 ^ bits + 2 ^ (D + 1) := by
    rw [Int.natCast_div]
    push_cast
    rw [hx'z]
    have hsplitZ : (2 : ℤ) ^ (bits + D + 1) = 2 ^ (D + 1) * 2 ^ bits := by
      rw [← pow_add]
      ring_nf
    rw [hsplitZ, Int.add_mul_ediv_right _ _
      (by positivity : (2 : ℤ) ^ bits ≠ 0)]
  have hxdivR : ((x' / 2 ^ bits : ℕ) : R (bits + D + 3))
      = ((x / 2 ^ bits : ℤ) : R (bits + D + 3))
        + (2 : R (bits + D + 3)) ^ (D + 1) := by
    calc ((x' / 2 ^ bits : ℕ) : R (bits + D + 3))
        = (((x' / 2 ^ bits : ℕ) : ℤ) : R (bits + D + 3)) := by
          rw [Int.cast_natCast]
      _ = ((x / 2 ^ bits + 2 ^ (D + 1) : ℤ) : R (bits + D + 3)) := by
          rw [hxdiv]
      _ = ((x / 2 ^ bits : ℤ) : R (bits + D + 3))
          + (2 : R (bits + D + 3)) ^ (D + 1) := by
          push_cast
          ring
  -- the carry-bit collapse
  have hbt : ((rbn : ℕ) : R (bits + D + 3))
      - 2 * (((u + rbn) % 2 : ℕ) : R (bits + D + 3))
        * ((rbn : ℕ) : R (bits + D + 3))
      + (((u + rbn) % 2 : ℕ) : R (bits + D + 3))
      = ((u : ℕ) : R (bits + D + 3)) := by
    interval_cases u <;> interval_cases rbn <;> norm_num
  -- assemble
  rw [Int.shiftRight_eq_div_pow]
  push_cast
  push_cast at hkeyR hxdivR hbt
  linear_combination (2 : R (bits + D + 3)) ^ (D + 2) * hbt + hkeyR + hxdivR

/-- Witness for C2 at a concrete input: one party over Z/2^4, `x = 3`,
`bits = 1`, mask `r = 5` (`rc = (5 mod 8) >> 1 = 2`, `rb = 0`). -/
theorem TruncAPr_error_bound_witness :
    ∃ e : ℕ, e ≤ 1 ∧
      (∑ i : Fin 1, TruncAPr_local 4 1 SignType.Unknown (i : ℕ)
          (TruncAPr_open 4 1 (fun _ => ((3 : ℤ) : R 4))
            (fun _ => ((5 : ℕ) : R 4)))
          ((fun _ => (((5 % 2 ^ (4 - 1)) / 2 ^ 1 : ℕ) : R 4)) i)
          ((fun _ => ((5 / 2 ^ (4 - 1) : ℕ) : R 4)) i))
        = (((3 : ℤ) >>> 1 : ℤ) : R 4) + ((e : ℕ) : R 4) :=
  TruncAPr_error_bound 4 1 1 SignType.Unknown (by decide) (by decide)
    3 (by decide) (by decide) 5 (by decide)
    (fun _ => ((3 : ℤ) : R 4)) (fun _ => ((5 : ℕ) : R 4))
    (fun _ => (((5 % 2 ^ (4 - 1)) / 2 ^ 1 : ℕ) : R 4))
    (fun _ => ((5 / 2 ^ (4 - 1) : ℕ) : R 4))
    (by simp) (by simp) (by simp) (by simp)

end Semi2k
